import Mathlib

/-!
Verification of the per-user scheduler and delivery splitter of
`app/core/bot.py` (class `TelegramBot`).

Strings are modelled as `List Char`.  The Telegram transport is an external
collaborator and is modelled as an oracle `tr : Str → SendOutcome` classifying
each attempted send as succeeding, raising the distinguishable
`BadRequest("Message is too long")` error, or raising any other exception.
-/

abbrev Str := List Char

/-- Python `str.strip()` whitespace characters (ASCII). -/
def isWs (c : Char) : Bool :=
  c = ' ' || c = '\t' || c = '\n' || c = '\r' || c = (Char.ofNat 11) || c = (Char.ofNat 12)

/-- Python `s.strip()`: drop leading and trailing whitespace. -/
def strip (s : Str) : Str :=
  ((s.dropWhile isWs).reverse.dropWhile isWs).reverse

/-- Python `text.split("\n\n")` (line 128): split on each leftmost
non-overlapping occurrence of a blank line. -/
def splitNN : Str → List Str
  | [] => [[]]
  | '\n' :: '\n' :: rest => [] :: splitNN rest
  | c :: rest =>
    match splitNN rest with
    | [] => [[c]]
    | p :: ps => (c :: p) :: ps

/-- Rejoin a paragraph list with `"\n\n"` separators. -/
def joinNN : List Str → Str
  | [] => []
  | [p] => p
  | p :: q :: ps => p ++ '\n' :: '\n' :: joinNN (q :: ps)

/-- One iteration of the paragraph-accumulation loop (lines 130-141).
The accumulator is `(parts, current_part)`. -/
def partStep (L : Nat) (acc : List Str × Str) (p : Str) : List Str × Str :=
  if L < acc.2.length + p.length + 2 then
    (if acc.2 = [] then acc.1 else acc.1 ++ [strip acc.2], p)
  else
    (acc.1, if acc.2 = [] then p else acc.2 ++ '\n' :: '\n' :: p)

/-- The part list built by lines 123-145 of `_send_long_message`
(greedy paragraph packing, with the final flush of `current_part`). -/
def splitParts (text : Str) (L : Nat) : List Str :=
  if ((splitNN text).foldl (partStep L) ([], [])).2 = [] then
    ((splitNN text).foldl (partStep L) ([], [])).1
  else
    ((splitNN text).foldl (partStep L) ([], [])).1 ++
      [strip ((splitNN text).foldl (partStep L) ([], [])).2]

/-- The marker `f"Part {i}/{n}:\n\n"` of line 151. -/
def header (i n : Nat) : Str :=
  ("Part ").data ++ Nat.toDigits 10 i ++ '/' :: Nat.toDigits 10 n ++ (":\n\n").data

/-- Lines 149-154: prefix each part with its marker when `total_parts > 1`;
`i` is the 1-indexed position of the first part of the list. -/
def addMarkers (n : Nat) : Nat → List Str → List Str
  | _, [] => []
  | i, p :: ps => (if 1 < n then header i n ++ p else p) :: addMarkers n (i + 1) ps

/-- Fuelled fixed-window splitter. -/
def windowsAux (L : Nat) : Nat → Str → List Str
  | 0, _ => []
  | _, [] => []
  | fuel + 1, c :: rest => (c :: rest).take L :: windowsAux L fuel ((c :: rest).drop L)

/-- Line 166: `[message[i:i + max_length] for i in range(0, len(message), max_length)]`. -/
def windows (L : Nat) (s : Str) : List Str := windowsAux L s.length s

/-- Outcome of one transport send: success, the distinguishable
`BadRequest("Message is too long")`, or any other raised exception. -/
inductive SendOutcome
  | ok
  | tooLong
  | other
deriving DecidableEq, Repr

/-- Result of one delivery call: `trace` is the sequence of message texts
passed to the transport in order; `caught` records (in order) the 1-indexed
part positions whose send raised and was caught by the `except` block
(line 161, the `print`); `raised` is true when an exception escaped
`_send_long_message` to its caller. -/
structure SendRes where
  trace : List Str
  caught : List Nat
  raised : Bool
deriving DecidableEq, Repr

/-- Lines 166-169: the fallback re-sends of the fixed windows.  These sends
are not guarded by any `try`, so the first one that raises escapes the whole
call; the returned Bool is true in that case. -/
def sendWindows (tr : Str → SendOutcome) : List Str → List Str × Bool
  | [] => ([], false)
  | w :: ws =>
    match tr w with
    | .ok => let r := sendWindows tr ws; (w :: r.1, r.2)
    | _ => ([w], true)

/-- Lines 149-169: the send loop over the marked messages, starting at
1-indexed position `i`.  A raised send is caught (and printed); when it is
the too-long `BadRequest`, the raising message is re-split into fixed
windows which are sent unguarded; any other caught error just moves on to
the next part. -/
def sendParts (tr : Str → SendOutcome) (L : Nat) : Nat → List Str → SendRes
  | _, [] => ⟨[], [], false⟩
  | i, m :: ms =>
    match tr m with
    | .ok =>
      let r := sendParts tr L (i + 1) ms
      ⟨m :: r.trace, r.caught, r.raised⟩
    | .tooLong =>
      let f := sendWindows tr (windows L m)
      if f.2 then ⟨m :: f.1, [i], true⟩
      else
        let r := sendParts tr L (i + 1) ms
        ⟨m :: (f.1 ++ r.trace), i :: r.caught, r.raised⟩
    | .other =>
      let r := sendParts tr L (i + 1) ms
      ⟨m :: r.trace, i :: r.caught, r.raised⟩

/-- `_send_long_message(chat_id, text, max_length)` (lines 116-169).
The short-circuit send of line 120 is not inside a `try`, so its failure
escapes to the caller. -/
def deliver (tr : Str → SendOutcome) (text : Str) (L : Nat) : SendRes :=
  if text.length ≤ L then
    ⟨[text], [], match tr text with | .ok => false | _ => true⟩
  else
    sendParts tr L 1 (addMarkers (splitParts text L).length 1 (splitParts text L))

/-- Lines 100-102 of `_process_messages`: the pass forwards the response to
`_send_long_message` only when it is truthy (`if response:`), so an empty
reply never reaches the splitter.  Returns the messages passed to the
transport. -/
def passDeliver (tr : Str → SendOutcome) (response : Str) (L : Nat) : List Str :=
  if response = [] then [] else (deliver tr response L).trace

/-- A paragraph is well-edged when it is nonempty and neither starts nor
ends with a whitespace character (so the per-part `strip()` cannot
alter it at a part boundary). -/
def GoodPara (p : Str) : Prop :=
  p ≠ [] ∧ p.head?.all (fun c => !isWs c) = true ∧
    p.getLast?.all (fun c => !isWs c) = true

instance (p : Str) : Decidable (GoodPara p) := by
  unfold GoodPara
  infer_instance

/-! ## Per-user scheduler (lines 83-114, plus the spawn block of
`handle_document`, lines 72-74), viewed from one fixed `user_id`. -/

/-- State of one user: `inFlight` is membership of the user in
`processing_users`; `passes` counts `_process_messages` tasks created and
not yet finished (scheduled or running); `backlog` counts queued messages
with `is_processed = False`. -/
structure SchedState where
  inFlight : Bool
  passes : Nat
  backlog : Nat
deriving DecidableEq, Repr

/-- Atomic transitions of the scheduler.  Each constructor is one
uninterrupted (no `await` inside) segment of the Python code.

Modelled from the spec: the Queue Store and Batch Processor live in
`app/handlers/message.py` and `app/database/mongodb.py`, which are not under
`src/`; per the spec, `enqueue` adds one unprocessed message,
`process(user_id)` "claims and marks all currently unprocessed messages for
`user_id` as processed" at some point during a pass (and may raise, in which
case no claim happens), and `countUnprocessed` reads the backlog. -/
inductive SchedStep : SchedState → SchedState → Prop
  /-- `handle_message`, user not in `processing_users`: enqueue, insert,
  spawn a pass (lines 89-94). -/
  | msgIdle (p b : Nat) : SchedStep ⟨false, p, b⟩ ⟨true, p + 1, b + 1⟩
  /-- `handle_message`, user already in `processing_users`: enqueue only. -/
  | msgBusy (p b : Nat) : SchedStep ⟨true, p, b⟩ ⟨true, p, b + 1⟩
  /-- `handle_document` spawn block (lines 72-74), user not in the set:
  insert and spawn, no enqueue. -/
  | docIdle (p b : Nat) : SchedStep ⟨false, p, b⟩ ⟨true, p + 1, b⟩
  /-- A running pass's `process_message_queue` claims all currently
  unprocessed messages (line 99). -/
  | claim (f : Bool) (p b : Nat) : SchedStep ⟨f, p + 1, b⟩ ⟨f, p + 1, 0⟩
  /-- A pass finishes (normally or by a raise): the `finally` block discards
  the user, finds no pending messages, and does not respawn (lines 103-114). -/
  | finishIdle (f : Bool) (p : Nat) : SchedStep ⟨f, p + 1, 0⟩ ⟨false, p, 0⟩
  /-- A pass finishes, the `finally` block discards the user, finds pending
  messages, re-inserts the user and spawns a new pass (lines 103-114). -/
  | finishMore (f : Bool) (p b : Nat) : SchedStep ⟨f, p + 1, b + 1⟩ ⟨true, p + 1, b + 1⟩

/-- The initial state: user idle, no task, empty queue. -/
def schedInit : SchedState := ⟨false, 0, 0⟩

/-- States reachable from the initial state by any interleaving. -/
def SchedReachable (s : SchedState) : Prop :=
  Relation.ReflTransGen SchedStep schedInit s

/-- The inductive invariant of the scheduler. -/
def SchedInv (s : SchedState) : Prop :=
  s.passes ≤ 1 ∧ (s.inFlight = true ↔ s.passes = 1) ∧ (0 < s.backlog → s.inFlight = true)

theorem schedInv_init : SchedInv schedInit := by
  constructor
  · exact Nat.zero_le 1
  · constructor
    · simp [schedInit]
    · simp [schedInit]

theorem schedInv_step {s t : SchedState} (hs : SchedInv s) (h : SchedStep s t) :
    SchedInv t := by
  obtain ⟨h1, h2, h3⟩ := hs
  cases h with
  | msgIdle p b =>
    simp only [SchedInv] at *
    have hp : p = 0 := by
      rcases Nat.eq_zero_or_pos p with h0 | h0
      · exact h0
      · exfalso
        have : p = 1 := by omega
        simp [this] at h2
    subst hp
    simp
  | msgBusy p b =>
    simp only [SchedInv] at *
    simp_all
  | docIdle p b =>
    simp only [SchedInv] at *
    have hp : p = 0 := by
      rcases Nat.eq_zero_or_pos p with h0 | h0
      · exact h0
      · exfalso
        have : p = 1 := by omega
        simp [this] at h2
    subst hp
    simp
  | claim f p b =>
    simp only [SchedInv] at *
    simp_all
  | finishIdle f p =>
    simp only [SchedInv] at *
    have hp : p = 0 := by omega
    subst hp
    refine ⟨by omega, by simp, by simp⟩
  | finishMore f p b =>
    simp only [SchedInv] at *
    have hf : f = true := h3 (Nat.succ_pos b)
    have hp1 : p + 1 = 1 := h2.mp hf
    refine ⟨h1, by simpa using hp1, by simp⟩

theorem schedReachable_inv {s : SchedState} (h : SchedReachable s) : SchedInv s := by
  induction h with
  | refl => exact schedInv_init
  | tail _ hstep ih => exact schedInv_step ih hstep

/-! ## Basic facts about `strip` -/

theorem head?_dropWhile_ws :
    ∀ (l : Str) (c : Char), (l.dropWhile isWs).head? = some c → isWs c = false := by
  intro l
  induction l with
  | nil => intro c hc; simp [List.dropWhile] at hc
  | cons a t ih =>
    intro c hc
    by_cases hpa : isWs a
    · rw [List.dropWhile_cons_of_pos hpa] at hc
      exact ih c hc
    · rw [List.dropWhile_cons_of_neg hpa] at hc
      simp only [List.head?_cons, Option.some.injEq] at hc
      subst hc
      exact Bool.eq_false_iff.mpr hpa

theorem getLast?_of_suffix {l q : Str} (h : l <:+ q) (hne : l ≠ []) :
    q.getLast? = l.getLast? := by
  obtain ⟨t, rfl⟩ := h
  exact List.getLast?_append_of_ne_nil t hne

theorem strip_getLast? {s : Str} {c : Char} (h : (strip s).getLast? = some c) :
    isWs c = false := by
  unfold strip at h
  rw [List.getLast?_reverse] at h
  exact head?_dropWhile_ws _ c h

theorem strip_head? {s : Str} {c : Char} (h : (strip s).head? = some c) :
    isWs c = false := by
  unfold strip at h
  rw [List.head?_reverse] at h
  set b := (s.dropWhile isWs).reverse.dropWhile isWs with hb
  have hbne : b ≠ [] := by
    intro h0
    rw [h0] at h
    simp at h
  have hsuf : b <:+ (s.dropWhile isWs).reverse := List.dropWhile_suffix isWs
  have h2 : ((s.dropWhile isWs).reverse).getLast? = some c :=
    (getLast?_of_suffix hsuf hbne).symm ▸ h
  rw [List.getLast?_reverse] at h2
  exact head?_dropWhile_ws _ c h2

theorem dropWhile_eq_self_of_head {l : Str}
    (h : ∀ c, l.head? = some c → isWs c = false) : l.dropWhile isWs = l := by
  cases l with
  | nil => rfl
  | cons a t =>
    have ha : isWs a = false := h a rfl
    exact List.dropWhile_cons_of_neg (by simp [ha])

theorem strip_eq_self {s : Str}
    (h1 : ∀ c, s.head? = some c → isWs c = false)
    (h2 : ∀ c, s.getLast? = some c → isWs c = false) : strip s = s := by
  unfold strip
  rw [dropWhile_eq_self_of_head h1]
  rw [dropWhile_eq_self_of_head (by intro c hc; rw [List.head?_reverse] at hc; exact h2 c hc)]
  exact List.reverse_reverse s

theorem length_strip_le (s : Str) : (strip s).length ≤ s.length := by
  unfold strip
  rw [List.length_reverse]
  calc ((s.dropWhile isWs).reverse.dropWhile isWs).length
      ≤ (s.dropWhile isWs).reverse.length := (List.dropWhile_suffix isWs).sublist.length_le
    _ = (s.dropWhile isWs).length := List.length_reverse _
    _ ≤ s.length := (List.dropWhile_suffix isWs).sublist.length_le

/-! ## Scheduler claims -/

/-- C1: for every user_id and every reachable interleaving of
inbound-message handling and pass completions, at most one
`_process_messages` pass is active (scheduled or running) for that user at
any time; `handle_message` spawns only when the user is absent from
`processing_users`, and a completing pass re-spawns only after re-inserting
the user (both captured by the `SchedStep` transitions). -/
theorem single_flight {s : SchedState} (h : SchedReachable s) : s.passes ≤ 1 :=
  (schedReachable_inv h).1

theorem single_flight_witness :
    SchedReachable ⟨true, 1, 1⟩ ∧ (SchedState.mk true 1 1).passes ≤ 1 :=
  ⟨Relation.ReflTransGen.single (SchedStep.msgIdle 0 0),
    single_flight (Relation.ReflTransGen.single (SchedStep.msgIdle 0 0))⟩

/-- C2: in every reachable state, if any unprocessed queued message remains
for the user, then the user is in the in-flight set and exactly one pass is
scheduled or running for it — the close-then-recheck `finally` block never
leaves an enqueued message with no pass scheduled for it, whether the pass
returned normally or raised. -/
theorem close_then_recheck {s : SchedState} (h : SchedReachable s)
    (hb : 0 < s.backlog) : s.inFlight = true ∧ s.passes = 1 := by
  obtain ⟨h1, h2, h3⟩ := schedReachable_inv h
  have hf := h3 hb
  exact ⟨hf, h2.mp hf⟩

theorem close_then_recheck_witness :
    SchedReachable ⟨true, 1, 1⟩ ∧ 0 < (SchedState.mk true 1 1).backlog ∧
      (SchedState.mk true 1 1).inFlight = true ∧ (SchedState.mk true 1 1).passes = 1 := by
  have htrace : SchedReachable ⟨true, 1, 1⟩ :=
    Relation.ReflTransGen.tail
      (Relation.ReflTransGen.tail
        (Relation.ReflTransGen.tail
          (Relation.ReflTransGen.single (SchedStep.msgIdle 0 0))
          (SchedStep.claim true 0 1))
        (SchedStep.msgBusy 1 0))
      (SchedStep.finishMore true 0 0)
  exact ⟨htrace, Nat.one_pos, close_then_recheck htrace Nat.one_pos⟩

/-! ## Splitter claims: short circuit and empty text -/

/-- C9: whenever `len(text) <= max_length` (boundary case included), the
delivery sends exactly one transport message whose content equals `text`,
with no part marker. -/
theorem short_circuit (tr : Str → SendOutcome) (text : Str) (L : Nat)
    (h : text.length ≤ L) : (deliver tr text L).trace = [text] := by
  unfold deliver
  rw [if_pos h]

theorem short_circuit_witness :
    ("hi").data.length ≤ 4000 ∧
      (deliver (fun _ => SendOutcome.ok) ("hi").data 4000).trace = [("hi").data] :=
  ⟨by decide, short_circuit _ _ _ (by decide)⟩

/-- C6 counterexample: for empty text the code performs a send (the
short-circuit branch fires because `0 <= max_length`), so the trace is the
one-element list containing the empty message, not the empty trace the
claim requires. -/
theorem empty_text_counterexample :
    (deliver (fun _ => SendOutcome.ok) [] 4000).trace = [([] : Str)] ∧
      (deliver (fun _ => SendOutcome.ok) [] 4000).trace ≠ [] := by
  exact ⟨rfl, by decide⟩

/-- C6 amended: no transport send happens for an empty reply only because
the caller `_process_messages` guards delivery with `if response:`; the
splitter `_send_long_message` itself has no emptiness guard and, called
with empty text, attempts exactly one send whose content is the empty
string. -/
theorem empty_text_sends_once (tr : Str → SendOutcome) (L : Nat) :
    passDeliver tr [] L = [] ∧ (deliver tr [] L).trace = [([] : Str)] := by
  constructor
  · rfl
  · unfold deliver
    rw [if_pos (show ([] : Str).length ≤ L from Nat.zero_le L)]

/-! ## Splitter claims: part sizes and stripping -/

theorem foldl_parts_strip (L : Nat) :
    ∀ (Ps : List Str) (parts : List Str) (cur : Str),
      (∀ q ∈ parts, ∃ x, q = strip x) →
      ∀ q ∈ (Ps.foldl (partStep L) (parts, cur)).1, ∃ x, q = strip x := by
  intro Ps
  induction Ps with
  | nil => intro parts cur h q hq; exact h q hq
  | cons p Ps ih =>
    intro parts cur h q hq
    rw [List.foldl_cons] at hq
    by_cases hcond : L < cur.length + p.length + 2
    · have hstep : partStep L (parts, cur) p =
          (if cur = [] then parts else parts ++ [strip cur], p) := by
        unfold partStep
        rw [if_pos hcond]
      rw [hstep] at hq
      by_cases hc : cur = []
      · rw [if_pos hc] at hq
        exact ih _ _ h q hq
      · rw [if_neg hc] at hq
        refine ih _ _ ?_ q hq
        intro r hr
        rcases List.mem_append.mp hr with h1 | h1
        · exact h r h1
        · rcases List.mem_singleton.mp h1 with rfl
          exact ⟨cur, rfl⟩
    · have hstep : partStep L (parts, cur) p =
          (parts, if cur = [] then p else cur ++ '\n' :: '\n' :: p) := by
        unfold partStep
        rw [if_neg hcond]
      rw [hstep] at hq
      exact ih _ _ h q hq

/-- C10: every part appended to the output sequence of the multi-part split
is passed through `strip()`, so every emitted part is strip-invariant and in
particular has no leading or trailing whitespace character. -/
theorem parts_are_stripped (text : Str) (L : Nat) (q : Str)
    (hq : q ∈ splitParts text L) :
    strip q = q ∧ (∀ c, q.head? = some c → isWs c = false) ∧
      (∀ c, q.getLast? = some c → isWs c = false) := by
  have hex : ∃ x, q = strip x := by
    unfold splitParts at hq
    by_cases h2 : ((splitNN text).foldl (partStep L) ([], [])).2 = []
    · rw [if_pos h2] at hq
      exact foldl_parts_strip L (splitNN text) [] [] (by simp) q hq
    · rw [if_neg h2] at hq
      rcases List.mem_append.mp hq with h1 | h1
      · exact foldl_parts_strip L (splitNN text) [] [] (by simp) q h1
      · rcases List.mem_singleton.mp h1 with rfl
        exact ⟨_, rfl⟩
  obtain ⟨x, rfl⟩ := hex
  exact ⟨strip_eq_self (fun c hc => strip_head? hc) (fun c hc => strip_getLast? hc),
    fun c hc => strip_head? hc, fun c hc => strip_getLast? hc⟩

theorem parts_are_stripped_witness :
    (['a'] ∈ splitParts (" a\n\nbb").data 3) ∧ strip ['a'] = ['a'] :=
  ⟨by decide, (parts_are_stripped (" a\n\nbb").data 3 ['a'] (by decide)).1⟩

theorem foldl_parts_length (L : Nat) :
    ∀ (Ps : List Str) (parts : List Str) (cur : Str),
      (∀ p ∈ Ps, p.length ≤ L) → (∀ q ∈ parts, q.length ≤ L) → cur.length ≤ L →
      (∀ q ∈ (Ps.foldl (partStep L) (parts, cur)).1, q.length ≤ L) ∧
        (Ps.foldl (partStep L) (parts, cur)).2.length ≤ L := by
  intro Ps
  induction Ps with
  | nil => intro parts cur _ hparts hcur; exact ⟨hparts, hcur⟩
  | cons p Ps ih =>
    intro parts cur hPs hparts hcur
    have hp : p.length ≤ L := hPs p (List.mem_cons_self p Ps)
    have hPs' : ∀ r ∈ Ps, r.length ≤ L := fun r hr => hPs r (List.mem_cons_of_mem p hr)
    rw [List.foldl_cons]
    by_cases hcond : L < cur.length + p.length + 2
    · have hstep : partStep L (parts, cur) p =
          (if cur = [] then parts else parts ++ [strip cur], p) := by
        unfold partStep
        rw [if_pos hcond]
      rw [hstep]
      refine ih _ _ hPs' ?_ hp
      by_cases hc : cur = []
      · rw [if_pos hc]
        exact hparts
      · rw [if_neg hc]
        intro q hq
        rcases List.mem_append.mp hq with h1 | h1
        · exact hparts q h1
        · rcases List.mem_singleton.mp h1 with rfl
          exact le_trans (length_strip_le cur) hcur
    · have hstep : partStep L (parts, cur) p =
          (parts, if cur = [] then p else cur ++ '\n' :: '\n' :: p) := by
        unfold partStep
        rw [if_neg hcond]
      rw [hstep]
      refine ih _ _ hPs' hparts ?_
      by_cases hc : cur = []
      · rw [if_pos hc]
        exact hp
      · rw [if_neg hc]
        have hlen : (cur ++ '\n' :: '\n' :: p).length = cur.length + 2 + p.length := by
          simp [List.length_append]
          omega
        omega

/-- C4: if every blank-line-delimited paragraph of `text` has length at most
`max_length`, then every part produced by the greedy paragraph split (before
any marker is prefixed) has length at most `max_length`. -/
theorem part_size_bound (text : Str) (L : Nat)
    (h : ∀ p ∈ splitNN text, p.length ≤ L) :
    ∀ q ∈ splitParts text L, q.length ≤ L := by
  intro q hq
  unfold splitParts at hq
  obtain ⟨hparts, hcur⟩ :=
    foldl_parts_length L (splitNN text) [] [] h (by simp) (by simp)
  by_cases h2 : ((splitNN text).foldl (partStep L) ([], [])).2 = []
  · rw [if_pos h2] at hq
    exact hparts q hq
  · rw [if_neg h2] at hq
    rcases List.mem_append.mp hq with h1 | h1
    · exact hparts q h1
    · rcases List.mem_singleton.mp h1 with rfl
      exact le_trans (length_strip_le _) hcur

theorem part_size_bound_witness :
    (∀ p ∈ splitNN ("aaaa\n\nbbbb").data, p.length ≤ 5) ∧
      (['a', 'a', 'a', 'a'] : Str).length ≤ 5 :=
  ⟨by decide, part_size_bound ("aaaa\n\nbbbb").data 5 (by decide) _ (by decide)⟩

/-! ## Paragraph structure: `splitNN` / `joinNN` lemmas -/

theorem GoodPara.head {p : Str} (h : GoodPara p) {c : Char}
    (hc : p.head? = some c) : isWs c = false := by
  have h2 := h.2.1
  rw [hc] at h2
  simpa using h2

theorem GoodPara.last {p : Str} (h : GoodPara p) {c : Char}
    (hc : p.getLast? = some c) : isWs c = false := by
  have h2 := h.2.2
  rw [hc] at h2
  simpa using h2

theorem splitNN_ne_nil (s : Str) : splitNN s ≠ [] := by
  induction s using splitNN.induct with
  | case1 => simp [splitNN]
  | case2 rest ih => simp [splitNN.eq_2]
  | case3 c rest hne h ih =>
    rw [splitNN.eq_3 c rest hne, h]
    simp
  | case4 c rest hne p ps h ih =>
    rw [splitNN.eq_3 c rest hne, h]
    simp

theorem joinNN_splitNN (s : Str) : joinNN (splitNN s) = s := by
  induction s using splitNN.induct with
  | case1 => rfl
  | case2 rest ih =>
    rw [splitNN.eq_2]
    obtain ⟨p, ps, hps⟩ : ∃ p ps, splitNN rest = p :: ps := by
      cases hsp : splitNN rest with
      | nil => exact absurd hsp (splitNN_ne_nil rest)
      | cons p ps => exact ⟨p, ps, rfl⟩
    rw [hps]
    rw [hps] at ih
    show ([] : Str) ++ '\n' :: '\n' :: joinNN (p :: ps) = '\n' :: '\n' :: rest
    rw [List.nil_append, ih]
  | case3 c rest hne h ih => exact absurd h (splitNN_ne_nil rest)
  | case4 c rest hne p ps h ih =>
    rw [splitNN.eq_3 c rest hne, h]
    rw [h] at ih
    cases ps with
    | nil =>
      show c :: p = c :: rest
      have hp : p = rest := ih
      rw [hp]
    | cons q ps' =>
      show (c :: p) ++ '\n' :: '\n' :: joinNN (q :: ps') = c :: rest
      have hih : p ++ '\n' :: '\n' :: joinNN (q :: ps') = rest := ih
      rw [List.cons_append, hih]

theorem joinNN_append (a b : List Str) (ha : a ≠ []) (hb : b ≠ []) :
    joinNN (a ++ b) = joinNN a ++ '\n' :: '\n' :: joinNN b := by
  induction a with
  | nil => exact absurd rfl ha
  | cons x a' ih =>
    cases a' with
    | nil =>
      cases b with
      | nil => exact absurd rfl hb
      | cons y b' => rfl
    | cons z a'' =>
      show x ++ '\n' :: '\n' :: joinNN ((z :: a'') ++ b) =
        (x ++ '\n' :: '\n' :: joinNN (z :: a'')) ++ '\n' :: '\n' :: joinNN b
      rw [ih (by simp)]
      simp [List.append_assoc]

theorem joinNN_concat (g : List Str) (p : Str) (hg : g ≠ []) :
    joinNN (g ++ [p]) = joinNN g ++ '\n' :: '\n' :: p :=
  joinNN_append g [p] hg (by simp)

theorem joinNN_ne_nil (g : List Str) (hg : g ≠ []) (hne : ∀ p ∈ g, p ≠ []) :
    joinNN g ≠ [] := by
  cases g with
  | nil => exact absurd rfl hg
  | cons p g' =>
    cases g' with
    | nil => exact hne p (by simp)
    | cons q g'' =>
      show p ++ '\n' :: '\n' :: joinNN (q :: g'') ≠ []
      simp

theorem head?_joinNN_mem (g : List Str) (hne : ∀ p ∈ g, p ≠ []) (c : Char)
    (hc : (joinNN g).head? = some c) : ∃ p ∈ g, p.head? = some c := by
  cases g with
  | nil => simp [joinNN] at hc
  | cons p g' =>
    cases g' with
    | nil => exact ⟨p, by simp, hc⟩
    | cons q g'' =>
      have hp : p ≠ [] := hne p (by simp)
      cases p with
      | nil => exact absurd rfl hp
      | cons a t =>
        refine ⟨a :: t, by simp, ?_⟩
        have : (joinNN ((a :: t) :: q :: g'')).head? = some a := rfl
        rw [this] at hc
        exact hc ▸ rfl

theorem getLast?_joinNN_mem (g : List Str) (hne : ∀ p ∈ g, p ≠ []) (c : Char)
    (hc : (joinNN g).getLast? = some c) : ∃ p ∈ g, p.getLast? = some c := by
  induction g with
  | nil => simp [joinNN] at hc
  | cons p g' ih =>
    cases g' with
    | nil => exact ⟨p, by simp, hc⟩
    | cons q g'' =>
      have hstep : joinNN (p :: q :: g'') = p ++ '\n' :: '\n' :: joinNN (q :: g'') := rfl
      rw [hstep] at hc
      have hJ : joinNN (q :: g'') ≠ [] :=
        joinNN_ne_nil _ (by simp) (fun r hr => hne r (List.mem_cons_of_mem _ hr))
      rw [List.getLast?_append_of_ne_nil _ (by simp)] at hc
      have hsplit : ('\n' :: '\n' :: joinNN (q :: g'') : Str) =
          ['\n', '\n'] ++ joinNN (q :: g'') := rfl
      rw [hsplit, List.getLast?_append_of_ne_nil _ hJ] at hc
      obtain ⟨r, hr, hrc⟩ := ih (fun r hr => hne r (List.mem_cons_of_mem _ hr)) hc
      exact ⟨r, List.mem_cons_of_mem _ hr, hrc⟩

theorem strip_joinNN (g : List Str) (hg : g ≠ []) (hgood : ∀ p ∈ g, GoodPara p) :
    strip (joinNN g) = joinNN g := by
  have hne : ∀ p ∈ g, p ≠ [] := fun p hp => (hgood p hp).1
  refine strip_eq_self ?_ ?_
  · intro c hc
    obtain ⟨p, hp, hpc⟩ := head?_joinNN_mem g hne c hc
    exact (hgood p hp).head hpc
  · intro c hc
    obtain ⟨p, hp, hpc⟩ := getLast?_joinNN_mem g hne c hc
    exact (hgood p hp).last hpc


theorem splitNN_append_sep (t : Str) :
    ∀ s : Str, splitNN s = [s] → s.getLast? ≠ some '\n' →
      splitNN (s ++ '\n' :: '\n' :: t) = s :: splitNN t := by
  intro s
  induction s with
  | nil =>
    intro _ _
    rw [List.nil_append, splitNN.eq_2]
  | cons c s' ih =>
    intro hs hlast
    cases s' with
    | nil =>
      have hc : c ≠ '\n' := by
        intro hcn
        exact hlast (by rw [hcn]; rfl)
      have hcon : ∀ (rest' : List Char), c = '\n' →
          ('\n' :: '\n' :: t : Str) = '\n' :: rest' → False :=
        fun _ h _ => hc h
      rw [List.cons_append, List.nil_append, splitNN.eq_3 c _ hcon, splitNN.eq_2]
    | cons d s'' =>
      have hnotnn : ¬(c = '\n' ∧ d = '\n') := by
        rintro ⟨rfl, rfl⟩
        rw [splitNN.eq_2] at hs
        have h0 : ([] : Str) = '\n' :: '\n' :: s'' := by
          injection hs
        exact absurd h0 (by simp)
      have hcon1 : ∀ (rest' : List Char), c = '\n' →
          (d :: s'' : Str) = '\n' :: rest' → False := by
        intro rest' h1 h2
        refine hnotnn ⟨h1, ?_⟩
        injection h2
      have hprev : splitNN (d :: s'') = [d :: s''] := by
        rw [splitNN.eq_3 c _ hcon1] at hs
        cases hsp : splitNN (d :: s'') with
        | nil => exact absurd hsp (splitNN_ne_nil _)
        | cons p ps =>
          rw [hsp] at hs
          have hs' : (c :: p) :: ps = [c :: d :: s''] := hs
          injection hs' with h1 h2
          injection h1 with h3 h4
          rw [h4, h2]
      have hlast' : (d :: s'' : Str).getLast? ≠ some '\n' := by
        rwa [List.getLast?_cons_cons] at hlast
      have hih : splitNN ((d :: s'') ++ '\n' :: '\n' :: t) = (d :: s'') :: splitNN t :=
        ih hprev hlast'
      have hcon2 : ∀ (rest' : List Char), c = '\n' →
          ((d :: s'') ++ '\n' :: '\n' :: t : Str) = '\n' :: rest' → False := by
        intro rest' h1 h2
        refine hnotnn ⟨h1, ?_⟩
        rw [List.cons_append] at h2
        injection h2
      calc splitNN ((c :: d :: s'') ++ '\n' :: '\n' :: t)
          = splitNN (c :: ((d :: s'') ++ '\n' :: '\n' :: t)) := by rw [List.cons_append]
        _ = (c :: d :: s'') :: splitNN t := by rw [splitNN.eq_3 c _ hcon2, hih]

theorem splitNN_joinNN (Ps : List Str) (hne : Ps ≠ [])
    (hgood : ∀ p ∈ Ps, GoodPara p) (hnn : ∀ p ∈ Ps, splitNN p = [p]) :
    splitNN (joinNN Ps) = Ps := by
  induction Ps with
  | nil => exact absurd rfl hne
  | cons P Ps' ih =>
    cases Ps' with
    | nil => exact hnn P (by simp)
    | cons Q Ps'' =>
      have hstep : joinNN (P :: Q :: Ps'') = P ++ '\n' :: '\n' :: joinNN (Q :: Ps'') := rfl
      rw [hstep]
      have hPlast : P.getLast? ≠ some '\n' := by
        intro hl
        have := (hgood P (by simp)).last hl
        simp [isWs] at this
      rw [splitNN_append_sep _ P (hnn P (by simp)) hPlast]
      rw [ih (by simp) (fun p hp => hgood p (List.mem_cons_of_mem _ hp))
        (fun p hp => hnn p (List.mem_cons_of_mem _ hp))]

theorem foldl_group (L : Nat) :
    ∀ (Ps : List Str) (parts0 : List Str) (g0 : List Str),
      g0 ≠ [] → (∀ p ∈ g0, GoodPara p) → (∀ p ∈ Ps, GoodPara p) →
      ∃ (gs : List (List Str)) (gfin : List Str),
        gfin ≠ [] ∧ (∀ p ∈ gfin, GoodPara p) ∧
        (∀ g ∈ gs, g ≠ [] ∧ ∀ p ∈ g, GoodPara p) ∧
        Ps.foldl (partStep L) (parts0, joinNN g0) =
          (parts0 ++ gs.map joinNN, joinNN gfin) ∧
        gs.flatten ++ gfin = g0 ++ Ps := by
  intro Ps
  induction Ps with
  | nil =>
    intro parts0 g0 hg0 hgood0 _
    exact ⟨[], g0, hg0, hgood0, by simp, by simp, by simp⟩
  | cons p Ps ih =>
    intro parts0 g0 hg0 hgood0 hgoodPs
    have hgp : GoodPara p := hgoodPs p (by simp)
    have hgoodPs' : ∀ r ∈ Ps, GoodPara r :=
      fun r hr => hgoodPs r (List.mem_cons_of_mem _ hr)
    have hJne : joinNN g0 ≠ [] := joinNN_ne_nil g0 hg0 (fun r hr => (hgood0 r hr).1)
    rw [List.foldl_cons]
    by_cases hcond : L < (joinNN g0).length + p.length + 2
    · have hstep : partStep L (parts0, joinNN g0) p =
          (parts0 ++ [strip (joinNN g0)], p) := by
        unfold partStep
        rw [if_pos hcond, if_neg hJne]
      rw [hstep, strip_joinNN g0 hg0 hgood0]
      obtain ⟨gs, gfin, h1, h2, h3, h4, h5⟩ :=
        ih (parts0 ++ [joinNN g0]) [p] (by simp) (by simpa using hgp) hgoodPs'
      have h4' : Ps.foldl (partStep L) (parts0 ++ [joinNN g0], p) =
          ((parts0 ++ [joinNN g0]) ++ gs.map joinNN, joinNN gfin) := h4
      refine ⟨g0 :: gs, gfin, h1, h2, ?_, ?_, ?_⟩
      · intro g hg
        rcases List.mem_cons.mp hg with rfl | hg'
        · exact ⟨hg0, hgood0⟩
        · exact h3 g hg'
      · rw [h4']
        simp [List.append_assoc]
      · have h5' : gs.flatten ++ gfin = [p] ++ Ps := h5
        show (g0 :: gs).flatten ++ gfin = g0 ++ p :: Ps
        rw [List.flatten_cons, List.append_assoc, h5']
        rfl
    · have hstep : partStep L (parts0, joinNN g0) p =
          (parts0, joinNN g0 ++ '\n' :: '\n' :: p) := by
        unfold partStep
        rw [if_neg hcond, if_neg hJne]
      rw [hstep, ← joinNN_concat g0 p hg0]
      have hgood0' : ∀ r ∈ g0 ++ [p], GoodPara r := by
        intro r hr
        rcases List.mem_append.mp hr with h1 | h1
        · exact hgood0 r h1
        · rcases List.mem_singleton.mp h1 with rfl
          exact hgp
      obtain ⟨gs, gfin, h1, h2, h3, h4, h5⟩ :=
        ih parts0 (g0 ++ [p]) (by simp) hgood0' hgoodPs'
      refine ⟨gs, gfin, h1, h2, h3, h4, ?_⟩
      rw [h5, List.append_assoc]
      rfl

theorem joinNN_map_flatten (groups : List (List Str))
    (hne : ∀ g ∈ groups, g ≠ []) :
    joinNN (groups.map joinNN) = joinNN groups.flatten := by
  induction groups with
  | nil => rfl
  | cons g gs ih =>
    cases gs with
    | nil =>
      show joinNN g = joinNN (g ++ [])
      rw [List.append_nil]
    | cons g' gs' =>
      have hg : g ≠ [] := hne g (by simp)
      have hg' : (g' :: gs').flatten ≠ [] := by
        have hne' : g' ≠ [] := hne g' (by simp)
        cases g' with
        | nil => exact absurd rfl hne'
        | cons x xs => simp
      show joinNN g ++ '\n' :: '\n' :: joinNN ((g' :: gs').map joinNN) =
        joinNN ((g :: g' :: gs').flatten)
      rw [ih (fun r hr => hne r (List.mem_cons_of_mem _ hr))]
      show _ = joinNN (g ++ (g' :: gs').flatten)
      rw [joinNN_append g _ hg hg']

/-- C3 amended: the paragraph round-trip holds for every text made of
nonempty, well-edged paragraphs (no leading or trailing whitespace and no
internal blank line), each of length at most `max_length`: the produced
parts are exactly the blank-line joins of consecutive whole paragraph
groups covering P1..Pk in order (so no paragraph is split across parts),
and rejoining the parts on blank lines reconstructs `text`. -/
theorem paragraph_roundtrip (text : Str) (L : Nat) (Ps : List Str)
    (hk : Ps ≠ []) (hjoin : text = joinNN Ps)
    (hgood : ∀ p ∈ Ps, GoodPara p)
    (hnn : ∀ p ∈ Ps, splitNN p = [p])
    (hlenPs : ∀ p ∈ Ps, p.length ≤ L)
    (hlen : L < text.length) :
    joinNN (splitParts text L) = text ∧
      ∃ (groups : List (List Str)), groups ≠ [] ∧ (∀ g ∈ groups, g ≠ []) ∧
        groups.flatten = Ps ∧ splitParts text L = groups.map joinNN := by
  have hsplit : splitNN text = Ps := by
    rw [hjoin]
    exact splitNN_joinNN Ps hk hgood hnn
  obtain ⟨P, Ps', rfl⟩ : ∃ P Ps', Ps = P :: Ps' := by
    cases Ps with
    | nil => exact absurd rfl hk
    | cons P Ps' => exact ⟨P, Ps', rfl⟩
  have hfirst : partStep L ([], ([] : Str)) P = ([], P) := by
    unfold partStep
    split
    · simp
    · simp
  have hfold : (splitNN text).foldl (partStep L) ([], []) =
      Ps'.foldl (partStep L) ([], P) := by
    rw [hsplit, List.foldl_cons, hfirst]
  obtain ⟨gs, gfin, h1, h2, h3, h4, h5⟩ :=
    foldl_group L Ps' [] [P] (by simp) (by simpa using hgood P (by simp))
      (fun r hr => hgood r (List.mem_cons_of_mem _ hr))
  have h4' : Ps'.foldl (partStep L) ([], P) = (gs.map joinNN, joinNN gfin) := by
    simpa using h4
  have h5' : gs.flatten ++ gfin = P :: Ps' := by
    simpa using h5
  have hfinne : joinNN gfin ≠ [] := joinNN_ne_nil gfin h1 (fun r hr => (h2 r hr).1)
  have hparts : splitParts text L = (gs ++ [gfin]).map joinNN := by
    unfold splitParts
    rw [hfold, h4']
    rw [if_neg hfinne]
    rw [strip_joinNN gfin h1 h2]
    simp
  have hallne : ∀ g ∈ gs ++ [gfin], g ≠ [] := by
    intro g hg
    rcases List.mem_append.mp hg with h' | h'
    · exact (h3 g h').1
    · rcases List.mem_singleton.mp h' with rfl
      exact h1
  have hflat : (gs ++ [gfin]).flatten = P :: Ps' := by
    rw [List.flatten_append]
    simpa using h5'
  refine ⟨?_, gs ++ [gfin], by simp, hallne, hflat, hparts⟩
  rw [hparts, joinNN_map_flatten _ hallne, hflat, hjoin]

/-- C3 counterexample: with `max_length = 3`, the text formed of the two
paragraphs `" a"` and `"bb"` (each of length 2 ≤ 3, total length 6 > 3)
is split into the parts `["a", "bb"]`: the leading space of the first
paragraph is destroyed by `strip()`, so rejoining the parts on blank lines
does not reconstruct the original paragraph sequence. -/
theorem paragraph_roundtrip_counterexample :
    (" a\n\nbb").data = (" a").data ++ '\n' :: '\n' :: ("bb").data ∧
      (" a").data.length ≤ 3 ∧ ("bb").data.length ≤ 3 ∧
      3 < (" a\n\nbb").data.length ∧
      splitParts (" a\n\nbb").data 3 = [['a'], ['b', 'b']] ∧
      joinNN (splitParts (" a\n\nbb").data 3) ≠ (" a\n\nbb").data := by
  decide

theorem paragraph_roundtrip_witness :
    (("aaaa\n\nbbbb").data = joinNN [("aaaa").data, ("bbbb").data]) ∧
      joinNN (splitParts ("aaaa\n\nbbbb").data 5) = ("aaaa\n\nbbbb").data :=
  ⟨by decide,
    (paragraph_roundtrip ("aaaa\n\nbbbb").data 5 [("aaaa").data, ("bbbb").data]
      (by decide) (by decide) (by decide) (by decide) (by decide) (by decide)).1⟩

/-! ## Send-loop lemmas -/

theorem sendParts_cons_ok {tr : Str → SendOutcome} {L i : Nat} {m : Str}
    {ms : List Str} (h : tr m = SendOutcome.ok) :
    sendParts tr L i (m :: ms) =
      ⟨m :: (sendParts tr L (i + 1) ms).trace, (sendParts tr L (i + 1) ms).caught,
        (sendParts tr L (i + 1) ms).raised⟩ := by
  conv_lhs => unfold sendParts
  rw [h]

theorem sendParts_cons_other {tr : Str → SendOutcome} {L i : Nat} {m : Str}
    {ms : List Str} (h : tr m = SendOutcome.other) :
    sendParts tr L i (m :: ms) =
      ⟨m :: (sendParts tr L (i + 1) ms).trace,
        i :: (sendParts tr L (i + 1) ms).caught,
        (sendParts tr L (i + 1) ms).raised⟩ := by
  conv_lhs => unfold sendParts
  rw [h]

theorem sendParts_cons_tooLong {tr : Str → SendOutcome} {L i : Nat} {m : Str}
    {ms : List Str} (h : tr m = SendOutcome.tooLong)
    (hw : (sendWindows tr (windows L m)).2 = false) :
    sendParts tr L i (m :: ms) =
      ⟨m :: ((sendWindows tr (windows L m)).1 ++ (sendParts tr L (i + 1) ms).trace),
        i :: (sendParts tr L (i + 1) ms).caught,
        (sendParts tr L (i + 1) ms).raised⟩ := by
  conv_lhs => unfold sendParts
  rw [h]
  show (if (sendWindows tr (windows L m)).2 = true
      then (⟨m :: (sendWindows tr (windows L m)).1, [i], true⟩ : SendRes)
      else ⟨m :: ((sendWindows tr (windows L m)).1 ++ (sendParts tr L (i + 1) ms).trace),
        i :: (sendParts tr L (i + 1) ms).caught, (sendParts tr L (i + 1) ms).raised⟩) = _
  rw [hw]
  simp

theorem sendWindows_ok (tr : Str → SendOutcome) :
    ∀ ws : List Str, (∀ w ∈ ws, tr w = SendOutcome.ok) →
      sendWindows tr ws = (ws, false) := by
  intro ws
  induction ws with
  | nil => intro _; rfl
  | cons w ws ih =>
    intro h
    unfold sendWindows
    rw [h w (by simp)]
    rw [ih (fun x hx => h x (List.mem_cons_of_mem _ hx))]

theorem sendParts_ok (tr : Str → SendOutcome) (L : Nat)
    (hok : ∀ m, tr m = SendOutcome.ok) :
    ∀ (ms : List Str) (i : Nat), sendParts tr L i ms = ⟨ms, [], false⟩ := by
  intro ms
  induction ms with
  | nil => intro i; rfl
  | cons m ms ih =>
    intro i
    rw [sendParts_cons_ok (hok m), ih (i + 1)]

theorem addMarkers_length (n : Nat) :
    ∀ (ps : List Str) (i : Nat), (addMarkers n i ps).length = ps.length := by
  intro ps
  induction ps with
  | nil => intro i; rfl
  | cons p ps ih =>
    intro i
    show (addMarkers n (i + 1) ps).length + 1 = ps.length + 1
    rw [ih (i + 1)]

theorem addMarkers_getElem? (n : Nat) :
    ∀ (ps : List Str) (i j : Nat),
      (addMarkers n i ps)[j]? =
        (ps[j]?).map (fun p => if 1 < n then header (i + j) n ++ p else p) := by
  intro ps
  induction ps with
  | nil => intro i j; simp [addMarkers]
  | cons p ps ih =>
    intro i j
    cases j with
    | zero => simp [addMarkers]
    | succ j' =>
      have hlhs : addMarkers n i (p :: ps) =
          (if 1 < n then header i n ++ p else p) :: addMarkers n (i + 1) ps := rfl
      rw [hlhs, List.getElem?_cons_succ, List.getElem?_cons_succ, ih (i + 1) j']
      simp only [show i + 1 + j' = i + (j' + 1) from by omega]

/-- C8: on the multi-part path with a transport that accepts every message,
the number of sent messages equals the part count N, and when N > 1 the
i-th sent message (1-indexed) is exactly `"Part i/N:\n\n"` followed by the
i-th part, while for N = 1 the part is sent without any marker. -/
theorem marker_correct (tr : Str → SendOutcome) (text : Str) (L : Nat)
    (hlen : L < text.length) (hok : ∀ m, tr m = SendOutcome.ok) :
    (deliver tr text L).trace.length = (splitParts text L).length ∧
      ∀ i p, (splitParts text L)[i]? = some p →
        (deliver tr text L).trace[i]? =
          some (if 1 < (splitParts text L).length
            then header (i + 1) (splitParts text L).length ++ p
            else p) := by
  have hd : deliver tr text L =
      sendParts tr L 1 (addMarkers (splitParts text L).length 1 (splitParts text L)) := by
    unfold deliver
    rw [if_neg (by omega)]
  rw [hd, sendParts_ok tr L hok _ 1]
  constructor
  · exact addMarkers_length _ _ _
  · intro i p hp
    show (addMarkers (splitParts text L).length 1 (splitParts text L))[i]? = _
    rw [addMarkers_getElem?, hp]
    simp only [Option.map_some', show 1 + i = i + 1 from by omega]

theorem marker_correct_witness :
    5 < ("aaaa\n\nbbbb").data.length ∧
      (deliver (fun _ => SendOutcome.ok) ("aaaa\n\nbbbb").data 5).trace.length =
        (splitParts ("aaaa\n\nbbbb").data 5).length :=
  ⟨by decide,
    (marker_correct (fun _ => SendOutcome.ok) ("aaaa\n\nbbbb").data 5
      (by decide) (fun _ => rfl)).1⟩

theorem sendParts_no_tooLong (tr : Str → SendOutcome) (L : Nat)
    (hno : ∀ m, tr m ≠ SendOutcome.tooLong) :
    ∀ (ms : List Str) (i : Nat),
      (sendParts tr L i ms).trace = ms ∧
        (sendParts tr L i ms).raised = false ∧
        ∀ j m, ms[j]? = some m → tr m = SendOutcome.other →
          (i + j) ∈ (sendParts tr L i ms).caught := by
  intro ms
  induction ms with
  | nil =>
    intro i
    refine ⟨rfl, rfl, ?_⟩
    intro j m hm
    simp at hm
  | cons m ms ih =>
    intro i
    obtain ⟨ht, hr, hc⟩ := ih (i + 1)
    cases htr : tr m with
    | tooLong => exact absurd htr (hno m)
    | ok =>
      rw [sendParts_cons_ok htr]
      refine ⟨?_, hr, ?_⟩
      · show m :: (sendParts tr L (i + 1) ms).trace = m :: ms
        rw [ht]
      · intro j m' hm' hother
        cases j with
        | zero =>
          rw [List.getElem?_cons_zero] at hm'
          injection hm' with hm'
          subst hm'
          rw [htr] at hother
          exact absurd hother (by simp)
        | succ j' =>
          rw [List.getElem?_cons_succ] at hm'
          show i + (j' + 1) ∈ (sendParts tr L (i + 1) ms).caught
          have harith : i + (j' + 1) = (i + 1) + j' := by omega
          rw [harith]
          exact hc j' m' hm' hother
    | other =>
      rw [sendParts_cons_other htr]
      refine ⟨?_, hr, ?_⟩
      · show m :: (sendParts tr L (i + 1) ms).trace = m :: ms
        rw [ht]
      · intro j m' hm' hother
        cases j with
        | zero =>
          show i + 0 ∈ i :: (sendParts tr L (i + 1) ms).caught
          simp
        | succ j' =>
          rw [List.getElem?_cons_succ] at hm'
          show i + (j' + 1) ∈ i :: (sendParts tr L (i + 1) ms).caught
          have harith : i + (j' + 1) = (i + 1) + j' := by omega
          rw [harith]
          exact List.mem_cons_of_mem _ (hc j' m' hm' hother)

/-- C7 amended: if sending part i raises any error other than the too-long
`BadRequest`, the loop does not retry that part and does not abort the
remaining parts — every marked message is still attempted exactly once, in
order — and the error is caught and recorded (the per-part `print`) with
its 1-indexed position; it is not propagated to the caller of
`_send_long_message`. -/
theorem per_part_failure (tr : Str → SendOutcome) (text : Str) (L : Nat)
    (hlen : L < text.length) (hno : ∀ m, tr m ≠ SendOutcome.tooLong) :
    (deliver tr text L).trace =
        addMarkers (splitParts text L).length 1 (splitParts text L) ∧
      (deliver tr text L).raised = false ∧
      ∀ j m,
        (addMarkers (splitParts text L).length 1 (splitParts text L))[j]? = some m →
        tr m = SendOutcome.other → (1 + j) ∈ (deliver tr text L).caught := by
  have hd : deliver tr text L =
      sendParts tr L 1 (addMarkers (splitParts text L).length 1 (splitParts text L)) := by
    unfold deliver
    rw [if_neg (by omega)]
  rw [hd]
  exact sendParts_no_tooLong tr L hno _ 1

/-- C7 counterexample: with parts `["aaa", "bbb"]` (`max_length = 3`) and a
transport raising a non-too-long error on every marked message, both part
sends fail, yet nothing escapes `_send_long_message` to its caller
(`raised = false`) while both parts are still attempted — the errors are
swallowed by the `except` block (printed), not surfaced to the caller. -/
theorem per_part_failure_counterexample :
    (fun m : Str => if 3 < m.length then SendOutcome.other else SendOutcome.ok)
        (("Part 1/2:\n\naaa").data) = SendOutcome.other ∧
      (deliver
          (fun m : Str => if 3 < m.length then SendOutcome.other else SendOutcome.ok)
          ("aaa\n\nbbb").data 3).trace =
        [("Part 1/2:\n\naaa").data, ("Part 2/2:\n\nbbb").data] ∧
      (deliver
          (fun m : Str => if 3 < m.length then SendOutcome.other else SendOutcome.ok)
          ("aaa\n\nbbb").data 3).raised = false := by
  decide

theorem per_part_failure_witness :
    3 < ("aaa\n\nbbb").data.length ∧
      (deliver
          (fun m : Str => if 3 < m.length then SendOutcome.other else SendOutcome.ok)
          ("aaa\n\nbbb").data 3).raised = false :=
  ⟨by decide,
    (per_part_failure
      (fun m : Str => if 3 < m.length then SendOutcome.other else SendOutcome.ok)
      ("aaa\n\nbbb").data 3 (by decide)
      (fun m => by by_cases h : 3 < m.length <;> simp [h])).2.1⟩

/-! ## Fixed-window fallback lemmas -/

theorem windowsAux_fuel (L : Nat) (hL : 0 < L) :
    ∀ (f1 f2 : Nat) (s : Str), s.length ≤ f1 → s.length ≤ f2 →
      windowsAux L f1 s = windowsAux L f2 s := by
  intro f1
  induction f1 with
  | zero =>
    intro f2 s h1 _
    have hs : s = [] := List.eq_nil_of_length_eq_zero (Nat.le_zero.mp h1)
    subst hs
    cases f2 with
    | zero => rfl
    | succ _ => rfl
  | succ f1' ih =>
    intro f2 s h1 h2
    cases s with
    | nil =>
      cases f2 with
      | zero => rfl
      | succ _ => rfl
    | cons c rest =>
      cases f2 with
      | zero => simp at h2
      | succ f2' =>
        show (c :: rest).take L :: windowsAux L f1' ((c :: rest).drop L) =
          (c :: rest).take L :: windowsAux L f2' ((c :: rest).drop L)
        congr 1
        refine ih f2' ((c :: rest).drop L) ?_ ?_
        · rw [List.length_drop]
          simp only [List.length_cons] at h1 ⊢
          omega
        · rw [List.length_drop]
          simp only [List.length_cons] at h2 ⊢
          omega

theorem windows_cons (L : Nat) (hL : 0 < L) (s : Str) (hs : s ≠ []) :
    windows L s = s.take L :: windows L (s.drop L) := by
  cases s with
  | nil => exact absurd rfl hs
  | cons c rest =>
    show windowsAux L (rest.length + 1) (c :: rest) = _
    have hstep : windowsAux L (rest.length + 1) (c :: rest) =
        (c :: rest).take L :: windowsAux L rest.length ((c :: rest).drop L) := rfl
    rw [hstep]
    congr 1
    refine windowsAux_fuel L hL rest.length ((c :: rest).drop L).length _ ?_ (le_refl _)
    rw [List.length_drop]
    simp only [List.length_cons]
    omega

theorem windows_three (L : Nat) (hL : 0 < L) (p : Str) (hlen : p.length = 3 * L) :
    windows L p = [p.take L, (p.drop L).take L, (p.drop L).drop L] := by
  have h1 : p ≠ [] := by
    intro h
    rw [h] at hlen
    simp at hlen
    omega
  rw [windows_cons L hL p h1]
  have hd1 : (p.drop L).length = 2 * L := by
    rw [List.length_drop]
    omega
  have h2 : p.drop L ≠ [] := by
    intro h
    rw [h] at hd1
    simp at hd1
    omega
  rw [windows_cons L hL _ h2]
  have hd2 : ((p.drop L).drop L).length = L := by
    rw [List.length_drop, hd1]
    omega
  have h3 : (p.drop L).drop L ≠ [] := by
    intro h
    rw [h] at hd2
    simp at hd2
    omega
  rw [windows_cons L hL _ h3]
  have hd3 : (((p.drop L).drop L).drop L).length = 0 := by
    rw [List.length_drop, hd2]
    omega
  rw [List.eq_nil_of_length_eq_zero hd3]
  have hnil : windows L ([] : Str) = [] := rfl
  rw [hnil]
  have htake : ((p.drop L).drop L).take L = (p.drop L).drop L :=
    List.take_of_length_le (by rw [hd2])
  rw [htake]

theorem splitParts_single (L : Nat) (p : Str) (hnn : splitNN p = [p])
    (hstrip : strip p = p) (hne : p ≠ []) : splitParts p L = [p] := by
  unfold splitParts
  rw [hnn]
  rw [List.foldl_cons]
  have hfirst : partStep L ([], ([] : Str)) p = ([], p) := by
    unfold partStep
    split
    · simp
    · simp
  rw [hfirst, List.foldl_nil]
  rw [if_neg hne, hstrip]
  rfl

/-- C5 amended: when the message whose send raises the too-long error is
re-split, the windows are taken from the message as sent (the part with its
marker prefix when N > 1); for a single paragraph of length 3·max_length
with no internal blank line the part count is 1, the message is the bare
part, and exactly 3 windows of length max_length are produced and sent, in
order, with no escaping error. -/
theorem oversize_fallback (tr : Str → SendOutcome) (L : Nat) (p : Str)
    (hL : 0 < L) (hnn : splitNN p = [p]) (hstrip : strip p = p)
    (hlen : p.length = 3 * L) (hfail : tr p = SendOutcome.tooLong)
    (hwin : ∀ w : Str, w.length ≤ L → tr w = SendOutcome.ok) :
    splitParts p L = [p] ∧
      windows L p = [p.take L, (p.drop L).take L, (p.drop L).drop L] ∧
      (deliver tr p L).trace = [p, p.take L, (p.drop L).take L, (p.drop L).drop L] ∧
      (deliver tr p L).raised = false := by
  have hne : p ≠ [] := by
    intro h
    rw [h] at hlen
    simp at hlen
    omega
  have hsp : splitParts p L = [p] := splitParts_single L p hnn hstrip hne
  have hw3 := windows_three L hL p hlen
  have hwlen : ∀ w ∈ windows L p, w.length ≤ L := by
    rw [hw3]
    intro w hw
    simp only [List.mem_cons, List.not_mem_nil, or_false] at hw
    rcases hw with rfl | rfl | rfl
    · rw [List.length_take]
      exact min_le_left _ _
    · rw [List.length_take]
      exact min_le_left _ _
    · rw [List.length_drop, List.length_drop, hlen]
      omega
  have hwok : sendWindows tr (windows L p) = (windows L p, false) :=
    sendWindows_ok tr _ (fun w hw => hwin w (hwlen w hw))
  have hmark : addMarkers (splitParts p L).length 1 (splitParts p L) = [p] := by
    rw [hsp]
    rfl
  have hd : deliver tr p L = sendParts tr L 1 [p] := by
    unfold deliver
    rw [if_neg (by omega), hmark]
  have hsend : sendParts tr L 1 [p] =
      ⟨p :: ((sendWindows tr (windows L p)).1 ++ (sendParts tr L 2 []).trace),
        1 :: (sendParts tr L 2 []).caught, (sendParts tr L 2 []).raised⟩ :=
    sendParts_cons_tooLong hfail (by rw [hwok])
  refine ⟨hsp, hw3, ?_, ?_⟩
  · rw [hd, hsend]
    show p :: ((sendWindows tr (windows L p)).1 ++ ([] : List Str)) = _
    rw [hwok]
    show p :: (windows L p ++ []) = _
    rw [List.append_nil, hw3]
  · rw [hd, hsend]
    rfl

/-- C5 counterexample: with `max_length = 5` and a transport whose hard
limit is 15 characters, the text `"aaaaaa\n\nbb"` splits into two parts, so
the first message sent is `"Part 1/2:\n\naaaaaa"`; its send raises the
too-long error and the code windows that whole marker-prefixed message —
the fallback pieces are `"Part "`, `"1/2:\n"`, `"\naaaa"`, `"aa"`, not the
windows of the bare part `"aaaaaa"` that the claim prescribes. -/
theorem oversize_fallback_counterexample :
    (fun m : Str => if 15 < m.length then SendOutcome.tooLong else SendOutcome.ok)
        (header 1 2 ++ ("aaaaaa").data) = SendOutcome.tooLong ∧
      (deliver
          (fun m : Str => if 15 < m.length then SendOutcome.tooLong else SendOutcome.ok)
          ("aaaaaa\n\nbb").data 5).trace =
        [header 1 2 ++ ("aaaaaa").data,
          ("Part ").data, ("1/2:\n").data, ("\naaaa").data, ("aa").data,
          header 2 2 ++ ("bb").data] ∧
      (deliver
          (fun m : Str => if 15 < m.length then SendOutcome.tooLong else SendOutcome.ok)
          ("aaaaaa\n\nbb").data 5).trace ≠
        [header 1 2 ++ ("aaaaaa").data] ++ windows 5 ("aaaaaa").data ++
          [header 2 2 ++ ("bb").data] := by
  decide

theorem oversize_fallback_witness :
    ("aaaaaa").data.length = 3 * 2 ∧
      (deliver
          (fun m : Str => if 5 < m.length then SendOutcome.tooLong else SendOutcome.ok)
          ("aaaaaa").data 2).trace =
        [("aaaaaa").data, ("aaaaaa").data.take 2, (("aaaaaa").data.drop 2).take 2,
          (("aaaaaa").data.drop 2).drop 2] :=
  ⟨by decide,
    (oversize_fallback
      (fun m : Str => if 5 < m.length then SendOutcome.tooLong else SendOutcome.ok)
      2 ("aaaaaa").data (by decide) (by decide) (by decide) (by decide) (by decide)
      (fun w hw => by
        show (if 5 < w.length then SendOutcome.tooLong else SendOutcome.ok) =
          SendOutcome.ok
        rw [if_neg (by omega)])).2.2.1⟩
